import Mathlib

/-!
# Verification of the Box2D-MT broad phase and contact-manager partition

A shallow embedding of the multithreaded broad phase
(`include/box2d/b2_broad_phase.h`, `src/collision/b2_broad_phase.cpp`) and
of the contact manager's TOI partition accessors
(`include/box2d/b2_contact_manager.h`), together with proofs of the
spec-level properties of pair discovery, deduplication, determinism,
tombstoning and the TOI partition invariant.

Machine `int32` values are modelled as `Int` (all quantities involved are
small identifiers and counts, far from overflow), array indices and thread
ids as `Nat`, and the opaque `void*` user data as `Int`.  The dynamic tree
(`b2DynamicTree`) does not appear in the sources, only its broad-phase
callers; it is modelled from the spec where noted.
-/

namespace Box2DMT

/-- 2-d vector, used only for the displacement argument of `MoveProxy`. -/
structure b2Vec2 where
  x : Int
  y : Int
deriving Repr, DecidableEq, Inhabited

/-- Axis-aligned bounding box, stored by its lower and upper corners. -/
structure b2AABB where
  lowerBoundX : Int
  lowerBoundY : Int
  upperBoundX : Int
  upperBoundY : Int
deriving Repr, DecidableEq, Inhabited

/-- `b2TestOverlap` on AABBs: the boxes intersect in both axes. -/
def b2TestOverlap (a b : b2AABB) : Bool :=
  decide (b.lowerBoundX ≤ a.upperBoundX) && decide (a.lowerBoundX ≤ b.upperBoundX) &&
  decide (b.lowerBoundY ≤ a.upperBoundY) && decide (a.lowerBoundY ≤ b.upperBoundY)

/-- `a.Contains b`: the box `b` lies inside the box `a`. -/
def b2Contains (a b : b2AABB) : Bool :=
  decide (a.lowerBoundX ≤ b.lowerBoundX) && decide (a.lowerBoundY ≤ b.lowerBoundY) &&
  decide (b.upperBoundX ≤ a.upperBoundX) && decide (b.upperBoundY ≤ a.upperBoundY)

/-- Modelled from the spec: the fattening margin (`b2_aabbExtension`);
`b2_settings.h` is not among the sources, so a concrete small margin is used. -/
def b2_aabbExtension : Int := 1

/-- Modelled from the spec: the displacement prediction multiplier
(`b2_aabbMultiplier`). -/
def b2_aabbMultiplier : Int := 2

/-- Modelled from the spec: the fat AABB stored by the spatial index — the
tight box enlarged by a margin and stretched in the direction of motion
("a margin plus velocity-direction prediction", spec §4.1). -/
def b2FattenAABB (aabb : b2AABB) (displacement : b2Vec2) : b2AABB :=
  let dx := b2_aabbMultiplier * displacement.x
  let dy := b2_aabbMultiplier * displacement.y
  { lowerBoundX := aabb.lowerBoundX - b2_aabbExtension + min dx 0
    lowerBoundY := aabb.lowerBoundY - b2_aabbExtension + min dy 0
    upperBoundX := aabb.upperBoundX + b2_aabbExtension + max dx 0
    upperBoundY := aabb.upperBoundY + b2_aabbExtension + max dy 0 }

/-- One leaf of the dynamic tree: a proxy id, its fat AABB and its user data. -/
structure b2TreeProxy where
  proxyId : Int
  fatAABB : b2AABB
  userData : Int
deriving Repr, DecidableEq, Inhabited

/-- Modelled from the spec: the spatial index (`b2DynamicTree`, whose sources
are not in the repository excerpt — only its broad-phase callers are).
The tree is abstracted to its observable contents: the set of live proxies,
each carrying a fat AABB and user data, plus a fresh-id counter.
Balancing and traversal order are irrelevant to the verified properties. -/
structure b2DynamicTree where
  proxies : List b2TreeProxy
  nextProxyId : Int
deriving Repr, DecidableEq, Inhabited

namespace b2DynamicTree

/-- The empty spatial index. -/
def empty : b2DynamicTree := ⟨[], 0⟩

/-- Modelled from the spec: `CreateProxy(aabb, userData) -> id` inserts a
fattened leaf and returns its fresh id. -/
def CreateProxy (t : b2DynamicTree) (aabb : b2AABB) (userData : Int) :
    b2DynamicTree × Int :=
  (⟨t.proxies ++ [⟨t.nextProxyId, b2FattenAABB aabb ⟨0, 0⟩, userData⟩],
    t.nextProxyId + 1⟩, t.nextProxyId)

/-- Modelled from the spec: `DestroyProxy(id)` removes the leaf. -/
def DestroyProxy (t : b2DynamicTree) (proxyId : Int) : b2DynamicTree :=
  ⟨t.proxies.filter (fun p => p.proxyId ≠ proxyId), t.nextProxyId⟩

/-- The leaf currently registered under a proxy id, if any. -/
def findProxy (t : b2DynamicTree) (proxyId : Int) : Option b2TreeProxy :=
  t.proxies.find? (fun p => p.proxyId = proxyId)

/-- Modelled from the spec: `MoveProxy(id, aabb, displacement) -> bool`
returns whether the proxy's fattened bound actually needed updating — if the
tight AABB is still contained in the current fat AABB, no update occurs. -/
def MoveProxy (t : b2DynamicTree) (proxyId : Int) (aabb : b2AABB)
    (displacement : b2Vec2) : b2DynamicTree × Bool :=
  match t.findProxy proxyId with
  | none => (t, false)
  | some p =>
    if b2Contains p.fatAABB aabb then (t, false)
    else
      (⟨t.proxies.map (fun q =>
          if q.proxyId = proxyId then { q with fatAABB := b2FattenAABB aabb displacement }
          else q), t.nextProxyId⟩, true)

/-- The fat AABB stored for a proxy (well-defined for live ids). -/
def GetFatAABB (t : b2DynamicTree) (proxyId : Int) : b2AABB :=
  ((t.findProxy proxyId).map (fun p => p.fatAABB)).getD default

/-- The user data stored for a proxy. -/
def GetUserData (t : b2DynamicTree) (proxyId : Int) : Int :=
  ((t.findProxy proxyId).map (fun p => p.userData)).getD 0

/-- Modelled from the spec: `Query(callback, aabb)` visits every proxy whose
fat AABB overlaps `aabb`; the visit order is the tree's storage order. -/
def Query (t : b2DynamicTree) (aabb : b2AABB) : List Int :=
  (t.proxies.filter (fun p => b2TestOverlap p.fatAABB aabb)).map
    (fun p => p.proxyId)

end b2DynamicTree

/-- `b2BroadPhase::e_nullProxy`, the tombstone written into the move buffer. -/
def e_nullProxy : Int := -1

/-- `b2Pair` (`b2_broad_phase.h`): one candidate pair of proxy ids. -/
structure b2Pair where
  proxyIdA : Int
  proxyIdB : Int
deriving Repr, DecidableEq, Inhabited

/-- `b2PairLessThan` (`b2_broad_phase.h`): the sort comparator over pairs. -/
def b2PairLessThan (pair1 pair2 : b2Pair) : Bool :=
  if pair1.proxyIdA < pair2.proxyIdA then true
  else if pair1.proxyIdA = pair2.proxyIdA then decide (pair1.proxyIdB < pair2.proxyIdB)
  else false

/-- `b2BroadPhasePerThreadData` (`b2_broad_phase.h`): a thread-local pair
buffer and the proxy id currently being queried. -/
structure b2BroadPhasePerThreadData where
  m_pairBuffer : List b2Pair
  m_queryProxyId : Int
deriving Repr, DecidableEq

instance : Inhabited b2BroadPhasePerThreadData := ⟨⟨[], -1⟩⟩

/-- `b2BroadPhasePerThreadData::QueryCallback` (`b2_broad_phase.cpp`):
called for each proxy the tree query visits; skips the query proxy itself
and records the canonicalized `(min, max)` id pair. -/
def b2BroadPhasePerThreadData.QueryCallback (td : b2BroadPhasePerThreadData)
    (proxyId : Int) : b2BroadPhasePerThreadData :=
  if proxyId = td.m_queryProxyId then td
  else
    { td with m_pairBuffer :=
        td.m_pairBuffer ++
          [⟨min proxyId td.m_queryProxyId, max proxyId td.m_queryProxyId⟩] }

/-- `b2_maxThreads`: the per-thread-data array size (value from settings,
not in the excerpt; the concrete value is irrelevant to the properties). -/
def b2_maxThreads : Nat := 32

/-- `b2BroadPhase` (`b2_broad_phase.h`): the spatial index, the proxy count,
the shared moved-proxy buffer and the per-thread data array. -/
structure b2BroadPhase where
  m_tree : b2DynamicTree
  m_proxyCount : Int
  m_moveBuffer : List Int
  m_perThreadData : List b2BroadPhasePerThreadData
deriving Repr, DecidableEq

namespace b2BroadPhase

/-- The freshly constructed broad phase (`b2BroadPhase::b2BroadPhase`). -/
def init : b2BroadPhase :=
  ⟨b2DynamicTree.empty, 0, [], List.replicate b2_maxThreads ⟨[], -1⟩⟩

/-- `b2BroadPhase::BufferMove`: push the proxy id onto the move buffer. -/
def BufferMove (bp : b2BroadPhase) (proxyId : Int) : b2BroadPhase :=
  { bp with m_moveBuffer := bp.m_moveBuffer ++ [proxyId] }

/-- `b2BroadPhase::UnBufferMove`: the loop overwrites every entry equal to
`proxyId` with `e_nullProxy`, leaving all other slots and the length alone. -/
def UnBufferMove (bp : b2BroadPhase) (proxyId : Int) : b2BroadPhase :=
  { bp with m_moveBuffer :=
      bp.m_moveBuffer.map (fun x => if x = proxyId then e_nullProxy else x) }

/-- `b2BroadPhase::CreateProxy`: delegate to the tree, bump the count,
buffer the new id as a move, return the tree-assigned id. -/
def CreateProxy (bp : b2BroadPhase) (aabb : b2AABB) (userData : Int) :
    b2BroadPhase × Int :=
  let r := bp.m_tree.CreateProxy aabb userData
  (BufferMove { bp with m_tree := r.1, m_proxyCount := bp.m_proxyCount + 1 } r.2,
   r.2)

/-- `b2BroadPhase::DestroyProxy`: unbuffer pending moves, decrement the
count, delegate to the tree. -/
def DestroyProxy (bp : b2BroadPhase) (proxyId : Int) : b2BroadPhase :=
  let bp1 := UnBufferMove bp proxyId
  { bp1 with m_proxyCount := bp1.m_proxyCount - 1,
             m_tree := bp1.m_tree.DestroyProxy proxyId }

/-- `b2BroadPhase::MoveProxy`: delegate to the tree; buffer the move only
when the tree reports the fat bound actually changed. -/
def MoveProxy (bp : b2BroadPhase) (proxyId : Int) (aabb : b2AABB)
    (displacement : b2Vec2) : b2BroadPhase :=
  let r := bp.m_tree.MoveProxy proxyId aabb displacement
  let bp1 := { bp with m_tree := r.1 }
  if r.2 then BufferMove bp1 proxyId else bp1

/-- `b2BroadPhase::TouchProxy`: force-buffer a proxy for reprocessing. -/
def TouchProxy (bp : b2BroadPhase) (proxyId : Int) : b2BroadPhase :=
  BufferMove bp proxyId

/-- `b2BroadPhase::Query`: delegate to the tree. -/
def Query (bp : b2BroadPhase) (aabb : b2AABB) : List Int :=
  bp.m_tree.Query aabb

/-- `b2BroadPhase::ResetBuffers`: clear the move buffer and every
per-thread pair buffer. -/
def ResetBuffers (bp : b2BroadPhase) : b2BroadPhase :=
  { bp with m_moveBuffer := [],
            m_perThreadData :=
              bp.m_perThreadData.map (fun td => { td with m_pairBuffer := [] }) }

/-- `b2BroadPhase::GetMoveCount`. -/
def GetMoveCount (bp : b2BroadPhase) : Nat :=
  bp.m_moveBuffer.length

end b2BroadPhase

/-- The pair ordering used for sorting (`p` not greater than `q` under
`b2PairLessThan`): the order in which the sorted buffer is laid out. -/
def pairLE (p q : b2Pair) : Prop := b2PairLessThan q p = false

/-- Strict pair order: `b2PairLessThan` read as a proposition. -/
def pairLT (p q : b2Pair) : Prop := b2PairLessThan p q = true

instance : DecidableRel pairLE := fun p q =>
  inferInstanceAs (Decidable (b2PairLessThan q p = false))

instance : DecidableRel pairLT := fun p q =>
  inferInstanceAs (Decidable (b2PairLessThan p q = true))

/-- The slice of the move buffer an `UpdatePairs` call walks:
`m_moveBuffer[i]` for `i` in `[moveBegin, moveEnd)`. -/
def slotsOf (moveBuffer : List Int) (moveBegin moveEnd : Nat) : List Int :=
  (List.range' moveBegin (moveEnd - moveBegin)).map
    (fun i => moveBuffer.getD i e_nullProxy)

namespace b2BroadPhase

/-- The tree-query phase of `b2BroadPhase::UpdatePairs`: for each slot of the
assigned range, set `m_queryProxyId`, skip tombstones, and query the tree with
the moved proxy's fat AABB, accumulating pairs through `QueryCallback`. -/
def queryLoop (t : b2DynamicTree) (td : b2BroadPhasePerThreadData)
    (slots : List Int) : b2BroadPhasePerThreadData :=
  slots.foldl
    (fun td qid =>
      let td1 := { td with m_queryProxyId := qid }
      if td1.m_queryProxyId = e_nullProxy then td1
      else
        (t.Query (t.GetFatAABB td1.m_queryProxyId)).foldl
          (fun a p => a.QueryCallback p) td1)
    td

/-- The sort step of `UpdatePairs` (`std::sort` with `b2PairLessThan`);
since pairs that compare equal are identical, any comparison sort yields
this same list. -/
def sortPairs (l : List b2Pair) : List b2Pair :=
  List.insertionSort pairLE l

/-- The inner skip loop of the `UpdatePairs` report walk: after emitting
`primary`, consecutive entries equal to it are skipped, and the next
distinct entry becomes the new primary and is emitted. -/
def reportWalkFrom (primary : b2Pair) : List b2Pair → List b2Pair
  | [] => []
  | q :: rest =>
    if q = primary then reportWalkFrom primary rest
    else q :: reportWalkFrom q rest

/-- The report loop of `UpdatePairs`: walk the sorted buffer, emitting each
pair once and skipping consecutive duplicates. -/
def reportWalk : List b2Pair → List b2Pair
  | [] => []
  | p :: rest => p :: reportWalkFrom p rest

/-- The per-thread data slot for a thread id (default-initialized when out
of range, matching the fixed-size C++ array). -/
def threadData (bp : b2BroadPhase) (threadId : Nat) : b2BroadPhasePerThreadData :=
  bp.m_perThreadData.getD threadId default

/-- `b2BroadPhase::UpdatePairs(moveBegin, moveEnd, callback, threadId)`:
query the tree for every non-tombstone moved proxy of the range, sort the
thread's pair buffer, then walk it skipping consecutive duplicates.  Returns
the updated broad phase (the thread's buffer is left sorted, as after the
in-place `std::sort`) and the sequence of pairs passed to `AddPair`, in
callback order. -/
def UpdatePairs (bp : b2BroadPhase) (moveBegin moveEnd : Nat) (threadId : Nat) :
    b2BroadPhase × List b2Pair :=
  let td1 := queryLoop bp.m_tree (bp.threadData threadId)
    (slotsOf bp.m_moveBuffer moveBegin moveEnd)
  let sorted := sortPairs td1.m_pairBuffer
  ({ bp with m_perThreadData :=
      bp.m_perThreadData.set threadId { td1 with m_pairBuffer := sorted } },
   reportWalk sorted)

/-- One `AddPair(userDataA, userDataB, threadId)` callback invocation. -/
structure AddPairCall where
  userDataA : Int
  userDataB : Int
  threadId : Nat
deriving Repr, DecidableEq

/-- The `AddPair` callback sequence of one `UpdatePairs` call: for each
emitted primary pair, the user data of its two proxies and the thread id. -/
def UpdatePairsCalls (bp : b2BroadPhase) (moveBegin moveEnd : Nat)
    (threadId : Nat) : List AddPairCall :=
  ((bp.UpdatePairs moveBegin moveEnd threadId).2).map
    (fun p => ⟨bp.m_tree.GetUserData p.proxyIdA, bp.m_tree.GetUserData p.proxyIdB,
               threadId⟩)

/-- Worker threads `0, 1, …` each run `UpdatePairs` on their assigned
sub-range of the shared move buffer; during this phase the tree and the move
buffer are read-only and pair buffers are thread-local, so each thread's
reported sequence is a function of the shared state and its own range. -/
def runThreadsFrom (bp : b2BroadPhase) (threadId : Nat) :
    List (Nat × Nat) → List (List b2Pair)
  | [] => []
  | r :: rest =>
    (bp.UpdatePairs r.1 r.2 threadId).2 :: runThreadsFrom bp (threadId + 1) rest

/-- The per-thread `AddPair` pair sequences of a parallel `UpdatePairs`
phase over the given range partition, thread `i` taking the `i`-th range. -/
def RunUpdatePairsThreads (bp : b2BroadPhase) (ranges : List (Nat × Nat)) :
    List (List b2Pair) :=
  runThreadsFrom bp 0 ranges

/-- All per-thread pair buffers are empty, as they are after a
`ResetBuffers` call. -/
def BuffersCleared (bp : b2BroadPhase) : Prop :=
  ∀ td ∈ bp.m_perThreadData, td.m_pairBuffer = []

instance (bp : b2BroadPhase) : Decidable (bp.BuffersCleared) :=
  inferInstanceAs (Decidable (∀ td ∈ bp.m_perThreadData, td.m_pairBuffer = []))

/-- `ranges` is a partition of `[a, n)` into consecutive sub-ranges. -/
def RangesCover (a n : Nat) : List (Nat × Nat) → Prop
  | [] => a = n
  | r :: rest => r.1 = a ∧ a ≤ r.2 ∧ RangesCover r.2 n rest

instance (a n : Nat) (l : List (Nat × Nat)) : Decidable (RangesCover a n l) := by
  induction l generalizing a with
  | nil => exact inferInstanceAs (Decidable (a = n))
  | cons r rest ih =>
    have : Decidable (RangesCover r.2 n rest) := ih r.2
    exact inferInstanceAs (Decidable (_ ∧ _ ∧ _))

end b2BroadPhase

/-- The canonical pairs one moved proxy's tree query records: every proxy
whose fat AABB overlaps the moved proxy's fat AABB, the moved proxy itself
excluded, as `(min id, max id)` — the denotation of `QueryCallback` runs. -/
def pairsFor (t : b2DynamicTree) (qid : Int) : List b2Pair :=
  (t.Query (t.GetFatAABB qid)).filterMap
    (fun p => if p = qid then none else some ⟨min p qid, max p qid⟩)

/-- The pairs a run over a list of move-buffer slots records: tombstoned
slots contribute nothing, every other slot contributes its query's pairs. -/
def discoverSlots (t : b2DynamicTree) (slots : List Int) : List b2Pair :=
  (slots.map (fun qid => if qid = e_nullProxy then [] else pairsFor t qid)).flatten

/-! ### Operation traces on the broad phase (for the query-exactness claim) -/

/-- One client operation on the broad phase. -/
inductive BroadPhaseOp where
  | create (aabb : b2AABB) (userData : Int)
  | move (proxyId : Int) (aabb : b2AABB) (displacement : b2Vec2)
  | destroy (proxyId : Int)
  | touch (proxyId : Int)
deriving Repr, DecidableEq

/-- Apply one operation. -/
def b2BroadPhase.applyOp (bp : b2BroadPhase) : BroadPhaseOp → b2BroadPhase
  | .create aabb userData => (bp.CreateProxy aabb userData).1
  | .move proxyId aabb displacement => bp.MoveProxy proxyId aabb displacement
  | .destroy proxyId => bp.DestroyProxy proxyId
  | .touch proxyId => bp.TouchProxy proxyId

/-- Apply a sequence of operations, oldest first. -/
def b2BroadPhase.applyOps (bp : b2BroadPhase) (ops : List BroadPhaseOp) :
    b2BroadPhase :=
  ops.foldl b2BroadPhase.applyOp bp

/-- The proxy ids still live after a trace, computed from the trace alone:
each `create` allocates the next fresh id, each `destroy` retires one. -/
def liveIdsFrom : List BroadPhaseOp → Int → List Int → List Int
  | [], _, live => live
  | .create _ _ :: rest, next, live => liveIdsFrom rest (next + 1) (live ++ [next])
  | .destroy proxyId :: rest, next, live =>
      liveIdsFrom rest next (live.filter (fun x => decide (x ≠ proxyId)))
  | .move _ _ _ :: rest, next, live => liveIdsFrom rest next live
  | .touch _ :: rest, next, live => liveIdsFrom rest next live

/-- The still-live proxy ids of a trace started on a fresh broad phase. -/
def liveIds (ops : List BroadPhaseOp) : List Int := liveIdsFrom ops 0 []

/-- Well-formedness of the spatial index: proxy ids are distinct and below
the fresh-id counter. -/
def b2DynamicTree.TreeWF (t : b2DynamicTree) : Prop :=
  (t.proxies.map (fun p => p.proxyId)).Nodup ∧
    ∀ x ∈ t.proxies.map (fun p => p.proxyId), x < t.nextProxyId

/-! ### The contact manager's TOI-partitioned contact array

`b2_contact_manager.cpp` is not part of the excerpt — only the header with
the partition accessors and the comments stating the partition discipline.
The array-maintenance operations are therefore modelled from the spec
(§3 "Contact partition invariant", §4.3 destruction and
`RecalculateToiCandidacy`). -/

/-- Swap the entries at two indices of a list (no-op when out of range). -/
def swapIdx {α : Type _} (l : List α) (i j : Nat) : List α :=
  match l[i]?, l[j]? with
  | some a, some b => (l.set i b).set j a
  | _, _ => l

/-- A contact, reduced to its identity and its continuous-collision (TOI)
eligibility — the only attributes the partition claim concerns. -/
structure b2Contact where
  contactId : Nat
  toiEligible : Bool
deriving Repr, DecidableEq, Inhabited

/-- The array index currently holding the contact with the given id (the
C++ code reaches the slot directly through the contact's stored
back-index). -/
def findContactIdx : List b2Contact → Nat → Option Nat
  | [], _ => none
  | c :: rest, contactId =>
    if c.contactId = contactId then some 0
    else (findContactIdx rest contactId).map (fun i => i + 1)

/-- The contact manager's flat contact array and partition boundary
(`m_contacts`, `m_toiCount` of `b2_contact_manager.h`). -/
structure b2ContactManager where
  m_contacts : List b2Contact
  m_toiCount : Nat
deriving Repr, DecidableEq

namespace b2ContactManager

/-- A contact manager with no contacts. -/
def initManager : b2ContactManager := ⟨[], 0⟩

/-- `GetToiBegin` returns the array start (index 0 of `m_contacts`). -/
def GetToiBegin (_cm : b2ContactManager) : Nat :=
  0

/-- `GetNonToiBegin` returns the array start plus `m_toiCount`. -/
def GetNonToiBegin (cm : b2ContactManager) : Nat :=
  cm.m_toiCount

/-- `GetNonToiCount` returns the array size minus `m_toiCount`. -/
def GetNonToiCount (cm : b2ContactManager) : Nat :=
  cm.m_contacts.length - cm.m_toiCount

/-- Modelled from the spec: `AddToContactArray` (declared in the header,
body not in the excerpt) — append the new contact; a TOI-eligible contact is
swapped to the partition boundary and the boundary advances. -/
def AddToContactArray (cm : b2ContactManager) (c : b2Contact) : b2ContactManager :=
  let arr := cm.m_contacts ++ [c]
  if c.toiEligible then
    ⟨swapIdx arr cm.m_toiCount (arr.length - 1), cm.m_toiCount + 1⟩
  else
    ⟨arr, cm.m_toiCount⟩

/-- Modelled from the spec: `RemoveFromContactArray` (declared in the
header, body not in the excerpt) — swap-with-last-and-truncate, adjusting
the TOI boundary when the removed element was on its left. -/
def RemoveFromContactArray (cm : b2ContactManager) (contactId : Nat) :
    b2ContactManager :=
  match findContactIdx cm.m_contacts contactId with
  | none => cm
  | some i =>
    let n := cm.m_contacts.length
    if i < cm.m_toiCount then
      let arr1 := swapIdx cm.m_contacts i (cm.m_toiCount - 1)
      let arr2 := swapIdx arr1 (cm.m_toiCount - 1) (n - 1)
      ⟨arr2.dropLast, cm.m_toiCount - 1⟩
    else
      ⟨(swapIdx cm.m_contacts i (n - 1)).dropLast, cm.m_toiCount⟩

/-- Modelled from the spec: `RecalculateToiCandidacy` — when a contact's
TOI eligibility changes it is swapped across the partition boundary and the
boundary moves by one; otherwise only the flag is updated. -/
def RecalculateToiCandidacy (cm : b2ContactManager) (contactId : Nat)
    (toi : Bool) : b2ContactManager :=
  match findContactIdx cm.m_contacts contactId with
  | none => cm
  | some i =>
    match cm.m_contacts[i]? with
    | none => cm
    | some c =>
      let arr := cm.m_contacts.set i { c with toiEligible := toi }
      if toi then
        if i < cm.m_toiCount then ⟨arr, cm.m_toiCount⟩
        else ⟨swapIdx arr cm.m_toiCount i, cm.m_toiCount + 1⟩
      else
        if i < cm.m_toiCount then ⟨swapIdx arr i (cm.m_toiCount - 1), cm.m_toiCount - 1⟩
        else ⟨arr, cm.m_toiCount⟩

end b2ContactManager

/-- One contact-lifecycle event: creation, destruction, or an eligibility
toggle. -/
inductive ContactOp where
  | create (c : b2Contact)
  | destroy (contactId : Nat)
  | recalc (contactId : Nat) (toiEligible : Bool)
deriving Repr, DecidableEq

/-- Apply one contact-lifecycle event. -/
def b2ContactManager.applyContactOp (cm : b2ContactManager) :
    ContactOp → b2ContactManager
  | .create c => cm.AddToContactArray c
  | .destroy contactId => cm.RemoveFromContactArray contactId
  | .recalc contactId toi => cm.RecalculateToiCandidacy contactId toi

/-- Apply a sequence of contact-lifecycle events, oldest first. -/
def b2ContactManager.applyContactOps (cm : b2ContactManager)
    (ops : List ContactOp) : b2ContactManager :=
  ops.foldl b2ContactManager.applyContactOp cm

/-- The partition invariant: the TOI boundary is in range and an entry is
TOI-eligible exactly when it sits below the boundary. -/
def b2ContactManager.ToiPartitioned (cm : b2ContactManager) : Prop :=
  cm.m_toiCount ≤ cm.m_contacts.length ∧
    ∀ i, (h : i < cm.m_contacts.length) →
      cm.m_contacts[i].toiEligible = decide (i < cm.m_toiCount)

/-! ### Concrete sample states used by witnesses and counterexamples -/

/-- A sample tight AABB. -/
def sampleAABB1 : b2AABB := ⟨0, 0, 4, 4⟩

/-- A second sample tight AABB, overlapping the first. -/
def sampleAABB2 : b2AABB := ⟨2, 2, 6, 6⟩

/-- A broad phase holding two freshly created overlapping proxies; both ids
sit in the move buffer. -/
def sampleBP : b2BroadPhase :=
  ((b2BroadPhase.init.CreateProxy sampleAABB1 10).1.CreateProxy sampleAABB2 20).1

/-! ### Order facts for `b2PairLessThan` -/

theorem b2PairLessThan_iff (p q : b2Pair) :
    b2PairLessThan p q = true ↔
      (p.proxyIdA < q.proxyIdA ∨
        (p.proxyIdA = q.proxyIdA ∧ p.proxyIdB < q.proxyIdB)) := by
  unfold b2PairLessThan
  split
  · simp_all
  · split <;> simp_all

theorem b2PairLessThan_eq_false_iff (p q : b2Pair) :
    b2PairLessThan p q = false ↔
      (q.proxyIdA < p.proxyIdA ∨
        (q.proxyIdA = p.proxyIdA ∧ q.proxyIdB ≤ p.proxyIdB)) := by
  rw [← Bool.not_eq_true, b2PairLessThan_iff]
  omega

theorem pairLE_iff (p q : b2Pair) :
    pairLE p q ↔
      (p.proxyIdA < q.proxyIdA ∨
        (p.proxyIdA = q.proxyIdA ∧ p.proxyIdB ≤ q.proxyIdB)) := by
  unfold pairLE
  rw [b2PairLessThan_eq_false_iff]

theorem pairLT_iff (p q : b2Pair) :
    pairLT p q ↔
      (p.proxyIdA < q.proxyIdA ∨
        (p.proxyIdA = q.proxyIdA ∧ p.proxyIdB < q.proxyIdB)) := by
  unfold pairLT
  rw [b2PairLessThan_iff]

instance : IsTotal b2Pair pairLE :=
  ⟨fun p q => by rw [pairLE_iff, pairLE_iff]; omega⟩

instance : IsTrans b2Pair pairLE :=
  ⟨fun p q r hpq hqr => by
    rw [pairLE_iff] at hpq hqr ⊢
    omega⟩

theorem pairLT_irrefl (p : b2Pair) : ¬ pairLT p p := by
  rw [pairLT_iff]; omega

theorem pairLT_of_pairLE_of_ne {p q : b2Pair} (h : pairLE p q) (hne : p ≠ q) :
    pairLT p q := by
  have hAB : p.proxyIdA ≠ q.proxyIdA ∨ p.proxyIdB ≠ q.proxyIdB := by
    by_contra hc
    push_neg at hc
    exact hne (by cases p; cases q; simp_all)
  rw [pairLE_iff] at h
  rw [pairLT_iff]
  omega

theorem pairLT_of_pairLT_of_pairLE {p q r : b2Pair} (h1 : pairLT p q)
    (h2 : pairLE q r) : pairLT p r := by
  rw [pairLT_iff] at h1 ⊢
  rw [pairLE_iff] at h2
  omega

theorem pairLT_ne {p q : b2Pair} (h : pairLT p q) : p ≠ q := by
  intro he
  subst he
  exact pairLT_irrefl p h

/-! ### The report walk: membership, sortedness, uniqueness -/

namespace b2BroadPhase

theorem reportWalkFrom_subset (primary : b2Pair) (l : List b2Pair) :
    ∀ x ∈ reportWalkFrom primary l, x ∈ l := by
  induction l generalizing primary with
  | nil => intro x hx; simp [reportWalkFrom] at hx
  | cons q rest ih =>
    intro x hx
    by_cases hq : q = primary
    · simp only [reportWalkFrom, if_pos hq] at hx
      exact List.mem_cons_of_mem q (ih primary x hx)
    · simp only [reportWalkFrom, if_neg hq, List.mem_cons] at hx
      rcases hx with h | h
      · exact h ▸ List.mem_cons_self q rest
      · exact List.mem_cons_of_mem q (ih q x h)

theorem mem_reportWalkFrom_of_mem (primary : b2Pair) (l : List b2Pair) :
    ∀ x ∈ l, x = primary ∨ x ∈ reportWalkFrom primary l := by
  induction l generalizing primary with
  | nil => intro x hx; simp at hx
  | cons q rest ih =>
    intro x hx
    by_cases hq : q = primary
    · simp only [reportWalkFrom, if_pos hq]
      rcases List.mem_cons.mp hx with h | h
      · exact Or.inl (h.trans hq)
      · exact ih primary x h
    · simp only [reportWalkFrom, if_neg hq]
      rcases List.mem_cons.mp hx with h | h
      · exact Or.inr (List.mem_cons.mpr (Or.inl h))
      · rcases ih q x h with h1 | h1
        · exact Or.inr (List.mem_cons.mpr (Or.inl h1))
        · exact Or.inr (List.mem_cons.mpr (Or.inr h1))

/-- The pairs the report walk emits are exactly the pairs of the buffer it
walks (as a set). -/
theorem mem_reportWalk (l : List b2Pair) (x : b2Pair) :
    x ∈ reportWalk l ↔ x ∈ l := by
  cases l with
  | nil => simp [reportWalk]
  | cons p rest =>
    simp only [reportWalk, List.mem_cons]
    constructor
    · rintro (h | h)
      · exact Or.inl h
      · exact Or.inr (reportWalkFrom_subset p rest x h)
    · rintro (h | h)
      · exact Or.inl h
      · rcases mem_reportWalkFrom_of_mem p rest x h with h1 | h1
        · exact Or.inl h1
        · exact Or.inr h1

theorem reportWalkFrom_pairwise (primary : b2Pair) (l : List b2Pair)
    (hsorted : l.Pairwise pairLE) (hlb : ∀ x ∈ l, pairLE primary x) :
    (primary :: reportWalkFrom primary l).Pairwise pairLT := by
  induction l generalizing primary with
  | nil => simp [reportWalkFrom, pairLT_irrefl]
  | cons q rest ih =>
    rcases List.pairwise_cons.mp hsorted with ⟨hq, hrest⟩
    by_cases hqp : q = primary
    · subst hqp
      simp only [reportWalkFrom, if_pos rfl]
      exact ih q hrest hq
    · simp only [reportWalkFrom, if_neg hqp]
      have hpq : pairLT primary q :=
        pairLT_of_pairLE_of_ne (hlb q (List.mem_cons_self q rest))
          (fun he => hqp he.symm)
      have htail : (q :: reportWalkFrom q rest).Pairwise pairLT := ih q hrest hq
      refine List.pairwise_cons.mpr ⟨?_, htail⟩
      intro x hx
      rcases List.mem_cons.mp hx with h | h
      · exact h ▸ hpq
      · rcases List.pairwise_cons.mp htail with ⟨hqx, _⟩
        exact pairLT_of_pairLT_of_pairLE hpq
          (by
            have := hqx x h
            rw [pairLT_iff] at this
            rw [pairLE_iff]
            omega)

/-- On a sorted buffer the report walk emits a strictly increasing pair
sequence. -/
theorem reportWalk_pairwise_of_sorted (l : List b2Pair)
    (hsorted : l.Pairwise pairLE) : (reportWalk l).Pairwise pairLT := by
  cases l with
  | nil => simp [reportWalk]
  | cons p rest =>
    rcases List.pairwise_cons.mp hsorted with ⟨hp, hrest⟩
    exact reportWalkFrom_pairwise p rest hrest hp

/-- On a sorted buffer the report walk emits each pair at most once. -/
theorem reportWalk_nodup_of_sorted (l : List b2Pair)
    (hsorted : l.Pairwise pairLE) : (reportWalk l).Nodup :=
  (reportWalk_pairwise_of_sorted l hsorted).imp (fun h => pairLT_ne h)

/-- The sorted buffer is a permutation of the original and is sorted. -/
theorem sortPairs_perm (l : List b2Pair) : (sortPairs l).Perm l :=
  List.perm_insertionSort pairLE l

theorem sortPairs_sorted (l : List b2Pair) : (sortPairs l).Pairwise pairLE :=
  List.sorted_insertionSort pairLE l

theorem mem_sortPairs (l : List b2Pair) (x : b2Pair) :
    x ∈ sortPairs l ↔ x ∈ l :=
  (sortPairs_perm l).mem_iff

/-- The emitted sequence of a sort-then-walk pass: each pair of the buffer
is reported exactly once. -/
theorem count_reportWalk_sortPairs (l : List b2Pair) (p : b2Pair) :
    (reportWalk (sortPairs l)).count p = if p ∈ l then 1 else 0 := by
  by_cases hp : p ∈ l
  · rw [if_pos hp]
    exact List.count_eq_one_of_mem
      (reportWalk_nodup_of_sorted _ (sortPairs_sorted l))
      ((mem_reportWalk _ p).mpr ((mem_sortPairs l p).mpr hp))
  · rw [if_neg hp]
    exact List.count_eq_zero_of_not_mem
      (fun h => hp ((mem_sortPairs l p).mp ((mem_reportWalk _ p).mp h)))

end b2BroadPhase

/-! ### The discovery phase characterized as a pure pair list -/

theorem foldl_QueryCallback (ids : List Int) (td : b2BroadPhasePerThreadData) :
    ids.foldl (fun a p => a.QueryCallback p) td =
      { td with m_pairBuffer := td.m_pairBuffer ++
          ids.filterMap (fun p =>
            if p = td.m_queryProxyId then none
            else some ⟨min p td.m_queryProxyId, max p td.m_queryProxyId⟩) } := by
  induction ids generalizing td with
  | nil => simp
  | cons p rest ih =>
    simp only [List.foldl_cons, List.filterMap_cons]
    by_cases hp : p = td.m_queryProxyId
    · rw [if_pos hp]
      have hcb : td.QueryCallback p = td := by
        simp [b2BroadPhasePerThreadData.QueryCallback, if_pos hp]
      rw [hcb, ih td]
    · rw [if_neg hp]
      have hcb : td.QueryCallback p =
          { td with m_pairBuffer :=
              td.m_pairBuffer ++ [⟨min p td.m_queryProxyId, max p td.m_queryProxyId⟩] } := by
        simp [b2BroadPhasePerThreadData.QueryCallback, if_neg hp]
      rw [hcb, ih]
      simp

theorem queryLoop_pairBuffer (t : b2DynamicTree) (td : b2BroadPhasePerThreadData)
    (slots : List Int) :
    (b2BroadPhase.queryLoop t td slots).m_pairBuffer =
      td.m_pairBuffer ++ discoverSlots t slots := by
  induction slots generalizing td with
  | nil => simp [b2BroadPhase.queryLoop, discoverSlots]
  | cons qid rest ih =>
    have hstep : b2BroadPhase.queryLoop t td (qid :: rest) =
        b2BroadPhase.queryLoop t
          (if qid = e_nullProxy then { td with m_queryProxyId := qid }
           else (t.Query (t.GetFatAABB qid)).foldl
             (fun a p => a.QueryCallback p) { td with m_queryProxyId := qid })
          rest := by
      simp only [b2BroadPhase.queryLoop, List.foldl_cons]
    rw [hstep]
    by_cases hq : qid = e_nullProxy
    · rw [if_pos hq, ih]
      simp [discoverSlots, if_pos hq]
    · rw [if_neg hq, foldl_QueryCallback, ih]
      simp only [discoverSlots, List.map_cons, List.flatten_cons, if_neg hq]
      simp [pairsFor, discoverSlots]

/-- The state of a thread's pair buffer after the query phase of
`UpdatePairs`: the prior buffer contents followed by the pairs discovered
over the assigned range. -/
theorem updatePairs_gathered (bp : b2BroadPhase) (moveBegin moveEnd threadId : Nat) :
    (b2BroadPhase.queryLoop bp.m_tree (bp.threadData threadId)
        (slotsOf bp.m_moveBuffer moveBegin moveEnd)).m_pairBuffer =
      (bp.threadData threadId).m_pairBuffer ++
        discoverSlots bp.m_tree (slotsOf bp.m_moveBuffer moveBegin moveEnd) :=
  queryLoop_pairBuffer _ _ _

theorem discoverSlots_filter_nulls (t : b2DynamicTree) (slots : List Int) :
    discoverSlots t slots =
      discoverSlots t (slots.filter (fun x => decide (x ≠ e_nullProxy))) := by
  induction slots with
  | nil => rfl
  | cons qid rest ih =>
    by_cases hq : qid = e_nullProxy
    · simp only [discoverSlots, List.map_cons, List.flatten_cons, if_pos hq,
        List.nil_append, List.filter_cons]
      rw [if_neg (by simp [hq])]
      exact ih
    · simp only [discoverSlots, List.map_cons, List.flatten_cons, if_neg hq,
        List.filter_cons]
      rw [if_pos (by simp [hq])]
      simp only [List.map_cons, List.flatten_cons, if_neg hq]
      rw [show (List.map (fun q => if q = e_nullProxy then [] else pairsFor t q)
          (List.filter (fun x => decide (x ≠ e_nullProxy)) rest)).flatten =
          discoverSlots t (List.filter (fun x => decide (x ≠ e_nullProxy)) rest) from rfl,
        ← ih]
      rfl

theorem discoverSlots_append (t : b2DynamicTree) (s1 s2 : List Int) :
    discoverSlots t (s1 ++ s2) = discoverSlots t s1 ++ discoverSlots t s2 := by
  simp [discoverSlots]

theorem slotsOf_append (mb : List Int) (a b c : Nat) (hab : a ≤ b) (hbc : b ≤ c) :
    slotsOf mb a c = slotsOf mb a b ++ slotsOf mb b c := by
  unfold slotsOf
  rw [← List.map_append]
  congr 1
  have h := List.range'_append a (b - a) (c - b) 1
  simp only [one_mul] at h
  rw [show a + (b - a) = b by omega] at h
  rw [show c - a = (c - b) + (b - a) by omega]
  exact h.symm

theorem updatePairs_snd_eq (bp : b2BroadPhase) (moveBegin moveEnd threadId : Nat) :
    (bp.UpdatePairs moveBegin moveEnd threadId).2 =
      b2BroadPhase.reportWalk (b2BroadPhase.sortPairs
        ((b2BroadPhase.queryLoop bp.m_tree (bp.threadData threadId)
          (slotsOf bp.m_moveBuffer moveBegin moveEnd)).m_pairBuffer)) := rfl

/-! ### Claim theorems: deduplication, finalize, canonical pairs, tombstones -/

/-- C2: within one `UpdatePairs` invocation — one call over one range with
one thread id — no unordered pair `(a, b)` is passed to the `AddPair`
callback twice, even when both proxies of the pair sit in the moved buffer
and each independently discovers the overlap: the emitted pair sequence is
duplicate-free. -/
theorem updatePairs_no_pair_reported_twice (bp : b2BroadPhase)
    (moveBegin moveEnd threadId : Nat) :
    ((bp.UpdatePairs moveBegin moveEnd threadId).2).Nodup :=
  b2BroadPhase.reportWalk_nodup_of_sorted _ (b2BroadPhase.sortPairs_sorted _)

/-- C3: pair reporting is a finalize step separate from discovery.  The
callback sequence of an `UpdatePairs` call is a pure function of the
completed thread-local buffer — the pre-existing contents followed by all
pairs discovered over the range — obtained by sorting that buffer and
walking it while skipping consecutive duplicates; each unique pair of the
buffer is emitted exactly once, and every emission becomes one
`AddPair(userDataA, userDataB, threadId)` call. -/
theorem updatePairs_finalize_once_per_unique_pair (bp : b2BroadPhase)
    (moveBegin moveEnd threadId : Nat) :
    ((bp.UpdatePairs moveBegin moveEnd threadId).2 =
        b2BroadPhase.reportWalk (b2BroadPhase.sortPairs
          ((bp.threadData threadId).m_pairBuffer ++
            discoverSlots bp.m_tree (slotsOf bp.m_moveBuffer moveBegin moveEnd))))
    ∧ (∀ p : b2Pair,
        ((bp.UpdatePairs moveBegin moveEnd threadId).2).count p =
          if p ∈ (bp.threadData threadId).m_pairBuffer ++
              discoverSlots bp.m_tree (slotsOf bp.m_moveBuffer moveBegin moveEnd)
          then 1 else 0)
    ∧ bp.UpdatePairsCalls moveBegin moveEnd threadId =
        ((bp.UpdatePairs moveBegin moveEnd threadId).2).map
          (fun p => ⟨bp.m_tree.GetUserData p.proxyIdA,
                     bp.m_tree.GetUserData p.proxyIdB, threadId⟩) := by
  refine ⟨?_, ?_, rfl⟩
  · rw [updatePairs_snd_eq, updatePairs_gathered]
  · intro p
    rw [updatePairs_snd_eq, updatePairs_gathered,
      b2BroadPhase.count_reportWalk_sortPairs]

/-- C5: every pair recorded during pair discovery is canonicalized with the
smaller proxy id stored as `proxyIdA` (strictly, since a proxy never pairs
with itself), and the query callback leaves the buffer unchanged when the
visited proxy id equals the querying proxy id. -/
theorem discovery_pairs_canonicalized (t : b2DynamicTree)
    (td td2 : b2BroadPhasePerThreadData) (slots : List Int)
    (h : td.m_pairBuffer.all (fun p => decide (p.proxyIdA < p.proxyIdB)) = true) :
    ((b2BroadPhase.queryLoop t td slots).m_pairBuffer).all
        (fun p => decide (p.proxyIdA < p.proxyIdB)) = true
    ∧ td2.QueryCallback td2.m_queryProxyId = td2 := by
  constructor
  · rw [queryLoop_pairBuffer, List.all_append, h, Bool.true_and,
      List.all_eq_true]
    intro p hp
    simp only [discoverSlots, List.mem_flatten, List.mem_map] at hp
    obtain ⟨l, ⟨qid, hqid, hl⟩, hpl⟩ := hp
    subst hl
    by_cases hq : qid = e_nullProxy
    · rw [if_pos hq] at hpl
      simp at hpl
    · rw [if_neg hq] at hpl
      simp only [pairsFor, List.mem_filterMap] at hpl
      obtain ⟨v, hv, hve⟩ := hpl
      by_cases hvq : v = qid
      · rw [if_pos hvq] at hve
        exact absurd hve (by simp)
      · rw [if_neg hvq] at hve
        have hp : p = ⟨min v qid, max v qid⟩ := (Option.some_inj.mp hve).symm
        subst hp
        simp only [decide_eq_true_eq]
        omega
  · simp [b2BroadPhasePerThreadData.QueryCallback]

/-- Witness for C5 at a concrete state: a discovery pass over the two moved
proxies of `sampleBP` yields only canonical pairs, and a callback on the
query proxy itself is a no-op. -/
theorem discovery_pairs_canonicalized_witness :
    ((b2BroadPhase.queryLoop sampleBP.m_tree ⟨[], -1⟩ [0, 1]).m_pairBuffer).all
        (fun p => decide (p.proxyIdA < p.proxyIdB)) = true
    ∧ b2BroadPhasePerThreadData.QueryCallback ⟨[], 5⟩ 5 = ⟨[], 5⟩ :=
  discovery_pairs_canonicalized sampleBP.m_tree ⟨[], -1⟩ ⟨[], 5⟩ [0, 1] (by decide)

/-- C7: `DestroyProxy` removes pending move-buffer entries for the destroyed
proxy by tombstoning: every occurrence of the id is overwritten with the
null-proxy sentinel while the buffer length and all other entries are
unchanged — the buffer is not compacted. -/
theorem destroyProxy_tombstones_move_buffer (bp : b2BroadPhase) (proxyId : Int) :
    (bp.DestroyProxy proxyId).m_moveBuffer =
      bp.m_moveBuffer.map (fun x => if x = proxyId then e_nullProxy else x)
    ∧ ((bp.DestroyProxy proxyId).m_moveBuffer).length = bp.m_moveBuffer.length :=
  ⟨rfl, by
    show (bp.m_moveBuffer.map _).length = _
    rw [List.length_map]⟩

/-- C8: `MoveProxy` enqueues the proxy id into the moved buffer if and only
if the spatial index's `MoveProxy` reports that the fattened bound actually
needed updating; in particular, when the tight AABB is still contained in
the current fat AABB nothing is updated and the proxy is not enqueued. -/
theorem moveProxy_buffers_iff_tree_updated (bp : b2BroadPhase) (proxyId : Int)
    (aabb : b2AABB) (displacement : b2Vec2) :
    ((bp.MoveProxy proxyId aabb displacement).m_moveBuffer =
        if (bp.m_tree.MoveProxy proxyId aabb displacement).2 then
          bp.m_moveBuffer ++ [proxyId]
        else bp.m_moveBuffer)
    ∧ ((match bp.m_tree.findProxy proxyId with
        | some p => b2Contains p.fatAABB aabb
        | none => true) = true →
        (bp.m_tree.MoveProxy proxyId aabb displacement).2 = false ∧
          bp.MoveProxy proxyId aabb displacement = bp) := by
  constructor
  · show (if (bp.m_tree.MoveProxy proxyId aabb displacement).2 then _ else _ :
        b2BroadPhase).m_moveBuffer = _
    by_cases hb : (bp.m_tree.MoveProxy proxyId aabb displacement).2
    · rw [if_pos hb, if_pos hb]
      rfl
    · rw [if_neg hb, if_neg hb]
  · intro h
    cases hf : bp.m_tree.findProxy proxyId with
    | none =>
      have ht : bp.m_tree.MoveProxy proxyId aabb displacement = (bp.m_tree, false) := by
        unfold b2DynamicTree.MoveProxy
        rw [hf]
      refine ⟨by rw [ht], ?_⟩
      show (if (bp.m_tree.MoveProxy proxyId aabb displacement).2 then _ else _ :
          b2BroadPhase) = bp
      rw [ht]
      rfl
    | some p =>
      rw [hf] at h
      have h2 : b2Contains p.fatAABB aabb = true := h
      have ht : bp.m_tree.MoveProxy proxyId aabb displacement = (bp.m_tree, false) := by
        unfold b2DynamicTree.MoveProxy
        rw [hf]
        show (if b2Contains p.fatAABB aabb = true then (bp.m_tree, false)
          else _) = (bp.m_tree, false)
        rw [if_pos h2]
      refine ⟨by rw [ht], ?_⟩
      show (if (bp.m_tree.MoveProxy proxyId aabb displacement).2 then _ else _ :
          b2BroadPhase) = bp
      rw [ht]
      rfl

/-- Witness for C8 at a concrete state: re-submitting `sampleAABB1` for
proxy 0 of `sampleBP` (whose fat AABB contains it) updates nothing and
enqueues nothing. -/
theorem moveProxy_buffers_iff_tree_updated_witness :
    (sampleBP.m_tree.MoveProxy 0 sampleAABB1 ⟨0, 0⟩).2 = false ∧
      sampleBP.MoveProxy 0 sampleAABB1 ⟨0, 0⟩ = sampleBP :=
  (moveProxy_buffers_iff_tree_updated sampleBP 0 sampleAABB1 ⟨0, 0⟩).2 (by decide)

/-- C9: `CreateProxy` delegates to the spatial index, increments the proxy
count, returns the id the spatial index assigned, and unconditionally
appends that id to the moved buffer. -/
theorem createProxy_delegates_and_buffers (bp : b2BroadPhase) (aabb : b2AABB)
    (userData : Int) :
    (bp.CreateProxy aabb userData).2 = (bp.m_tree.CreateProxy aabb userData).2
    ∧ ((bp.CreateProxy aabb userData).1).m_tree =
        (bp.m_tree.CreateProxy aabb userData).1
    ∧ ((bp.CreateProxy aabb userData).1).m_proxyCount = bp.m_proxyCount + 1
    ∧ ((bp.CreateProxy aabb userData).1).m_moveBuffer =
        bp.m_moveBuffer ++ [(bp.CreateProxy aabb userData).2] :=
  ⟨rfl, rfl, rfl, rfl⟩

/-- C10: `UpdatePairs` skips tombstoned slots: a null-proxy slot triggers no
tree query and contributes no pairs — the buffer after the query phase, and
the emitted callback sequence, are the same as if every null slot of the
range were absent, so a destroyed proxy's fat AABB is never read during
pair discovery. -/
theorem updatePairs_skips_tombstones (bp : b2BroadPhase)
    (moveBegin moveEnd threadId : Nat) :
    (b2BroadPhase.queryLoop bp.m_tree (bp.threadData threadId)
        [e_nullProxy]).m_pairBuffer = (bp.threadData threadId).m_pairBuffer
    ∧ discoverSlots bp.m_tree (slotsOf bp.m_moveBuffer moveBegin moveEnd)
        = discoverSlots bp.m_tree
            ((slotsOf bp.m_moveBuffer moveBegin moveEnd).filter
              (fun x => decide (x ≠ e_nullProxy)))
    ∧ (bp.UpdatePairs moveBegin moveEnd threadId).2
        = b2BroadPhase.reportWalk (b2BroadPhase.sortPairs
            ((bp.threadData threadId).m_pairBuffer ++
              discoverSlots bp.m_tree
                ((slotsOf bp.m_moveBuffer moveBegin moveEnd).filter
                  (fun x => decide (x ≠ e_nullProxy))))) := by
  refine ⟨?_, discoverSlots_filter_nulls _ _, ?_⟩
  · rw [queryLoop_pairBuffer]
    simp [discoverSlots]
  · rw [updatePairs_snd_eq, updatePairs_gathered, ← discoverSlots_filter_nulls]

/-! ### Determinism of a parallel `UpdatePairs` phase -/

theorem threadData_pairBuffer_of_cleared {bp : b2BroadPhase}
    (hc : bp.BuffersCleared) (threadId : Nat) :
    (bp.threadData threadId).m_pairBuffer = [] := by
  unfold b2BroadPhase.threadData
  rw [List.getD_eq_getElem?_getD]
  cases h : bp.m_perThreadData[threadId]? with
  | none => rfl
  | some td =>
    have hmem : td ∈ bp.m_perThreadData := List.getElem?_mem h
    exact hc td hmem

theorem resetBuffers_cleared (bp : b2BroadPhase) :
    (bp.ResetBuffers).BuffersCleared := by
  intro td htd
  simp only [b2BroadPhase.ResetBuffers, List.mem_map] at htd
  obtain ⟨td0, _, htd0⟩ := htd
  rw [← htd0]

theorem runThreadsFrom_of_cleared (bp : b2BroadPhase) (hc : bp.BuffersCleared)
    (ranges : List (Nat × Nat)) (threadId : Nat) :
    b2BroadPhase.runThreadsFrom bp threadId ranges =
      ranges.map (fun r => b2BroadPhase.reportWalk (b2BroadPhase.sortPairs
        (discoverSlots bp.m_tree (slotsOf bp.m_moveBuffer r.1 r.2)))) := by
  induction ranges generalizing threadId with
  | nil => rfl
  | cons r rest ih =>
    simp only [b2BroadPhase.runThreadsFrom, List.map_cons]
    rw [ih (threadId + 1)]
    rw [updatePairs_snd_eq, updatePairs_gathered,
      threadData_pairBuffer_of_cleared hc, List.nil_append]

theorem rangesCover_le {a n : Nat} {ranges : List (Nat × Nat)}
    (hcov : b2BroadPhase.RangesCover a n ranges) : a ≤ n := by
  induction ranges generalizing a with
  | nil => exact le_of_eq hcov
  | cons r rest ih =>
    obtain ⟨_, har, hcov2⟩ := hcov
    exact le_trans har (ih hcov2)

theorem mem_flatten_mapOut (t : b2DynamicTree) (mb : List Int)
    (ranges : List (Nat × Nat)) (a n : Nat)
    (hcov : b2BroadPhase.RangesCover a n ranges) (p : b2Pair) :
    p ∈ (ranges.map (fun r => b2BroadPhase.reportWalk (b2BroadPhase.sortPairs
          (discoverSlots t (slotsOf mb r.1 r.2))))).flatten ↔
      p ∈ discoverSlots t (slotsOf mb a n) := by
  induction ranges generalizing a with
  | nil =>
    have han : a = n := hcov
    subst han
    simp [slotsOf, discoverSlots]
  | cons r rest ih =>
    obtain ⟨hr1, har, hcov2⟩ := hcov
    have hr2n : r.2 ≤ n := rangesCover_le hcov2
    rw [List.map_cons, List.flatten_cons, List.mem_append,
      b2BroadPhase.mem_reportWalk, b2BroadPhase.mem_sortPairs, ih r.2 hcov2,
      slotsOf_append mb a r.2 n (hr1 ▸ har) hr2n, discoverSlots_append,
      List.mem_append, hr1]

/-- C1 (amended): a parallel `UpdatePairs` phase is deterministic for a
fixed partitioning — two broad phases with the same tree and the same
moved-proxy buffer whose pair buffers are cleared (as `ResetBuffers`
leaves them) produce identical per-thread `AddPair` pair sequences over the
same range partition — and the reported pair *set* does not depend on the
partitioning: any partition of the move buffer, one thread or many, reports
the same set of pairs as a single thread covering the whole buffer.  (The
callback order and multiplicity across *different* thread counts do differ;
see the counterexample.) -/
theorem updatePairs_deterministic_for_fixed_partition (s₁ s₂ : b2BroadPhase)
    (ranges : List (Nat × Nat))
    (htree : s₁.m_tree = s₂.m_tree) (hmb : s₁.m_moveBuffer = s₂.m_moveBuffer)
    (hc₁ : s₁.BuffersCleared) (hc₂ : s₂.BuffersCleared)
    (hcov : b2BroadPhase.RangesCover 0 s₁.m_moveBuffer.length ranges) :
    s₁.RunUpdatePairsThreads ranges = s₂.RunUpdatePairsThreads ranges
    ∧ ((s₁.RunUpdatePairsThreads ranges).flatten).toFinset =
        ((s₁.RunUpdatePairsThreads [(0, s₁.m_moveBuffer.length)]).flatten).toFinset
    ∧ (s₁.ResetBuffers).BuffersCleared := by
  refine ⟨?_, ?_, resetBuffers_cleared s₁⟩
  · unfold b2BroadPhase.RunUpdatePairsThreads
    rw [runThreadsFrom_of_cleared s₁ hc₁, runThreadsFrom_of_cleared s₂ hc₂,
      htree, hmb]
  · unfold b2BroadPhase.RunUpdatePairsThreads
    rw [runThreadsFrom_of_cleared s₁ hc₁, runThreadsFrom_of_cleared s₁ hc₁]
    ext x
    rw [List.mem_toFinset, List.mem_toFinset,
      mem_flatten_mapOut s₁.m_tree s₁.m_moveBuffer ranges 0
        s₁.m_moveBuffer.length hcov x,
      mem_flatten_mapOut s₁.m_tree s₁.m_moveBuffer
        [(0, s₁.m_moveBuffer.length)] 0 s₁.m_moveBuffer.length
        ⟨rfl, Nat.zero_le _, rfl⟩ x]

/-- Witness for the amended C1 at a concrete state: over `sampleBP`'s
two-entry move buffer, the two-thread partition is deterministic and
reports the same pair set as the single-thread run. -/
theorem updatePairs_deterministic_for_fixed_partition_witness :
    sampleBP.RunUpdatePairsThreads [(0, 1), (1, 2)] =
        sampleBP.RunUpdatePairsThreads [(0, 1), (1, 2)]
    ∧ ((sampleBP.RunUpdatePairsThreads [(0, 1), (1, 2)]).flatten).toFinset =
        ((sampleBP.RunUpdatePairsThreads
          [(0, sampleBP.m_moveBuffer.length)]).flatten).toFinset
    ∧ (sampleBP.ResetBuffers).BuffersCleared :=
  updatePairs_deterministic_for_fixed_partition sampleBP sampleBP
    [(0, 1), (1, 2)] rfl rfl (by decide) (by decide) (by decide)

/-- Counterexample to C1 as stated: the `AddPair` callback sequence is not
identical for 1 thread versus 2 threads over the same moved-proxy buffer.
On `sampleBP` (two moved overlapping proxies), a single thread reports the
pair `(0, 1)` once, while two threads — each of whose sub-range holds one
of the two proxies — report it once per thread: callback counts 2 versus 1. -/
theorem updatePairs_threadcount_counterexample :
    (sampleBP.RunUpdatePairsThreads [(0, 1), (1, 2)]).flatten ≠
      (sampleBP.RunUpdatePairsThreads [(0, 2)]).flatten ∧
    ((sampleBP.RunUpdatePairsThreads [(0, 1), (1, 2)]).flatten).count
        ⟨0, 1⟩ = 2 ∧
    ((sampleBP.RunUpdatePairsThreads [(0, 2)]).flatten).count ⟨0, 1⟩ = 1 := by
  decide

/-! ### Query exactness over operation traces -/

theorem map_proxyId_filter_ne (l : List b2TreeProxy) (pid : Int) :
    (l.filter (fun p => decide (p.proxyId ≠ pid))).map (fun p => p.proxyId) =
      (l.map (fun p => p.proxyId)).filter (fun x => decide (x ≠ pid)) := by
  induction l with
  | nil => rfl
  | cons p rest ih =>
    rw [List.filter_cons, List.map_cons, List.filter_cons]
    by_cases hp : p.proxyId = pid
    · rw [if_neg (by simp [hp]), if_neg (by simp [hp])]
      exact ih
    · rw [if_pos (by simp [hp]), if_pos (by simp [hp]), List.map_cons, ih]

theorem tree_moveProxy_preserves_ids (t : b2DynamicTree) (proxyId : Int)
    (aabb : b2AABB) (displacement : b2Vec2) :
    ((t.MoveProxy proxyId aabb displacement).1).proxies.map (fun p => p.proxyId) =
        t.proxies.map (fun p => p.proxyId)
    ∧ ((t.MoveProxy proxyId aabb displacement).1).nextProxyId = t.nextProxyId := by
  unfold b2DynamicTree.MoveProxy
  cases hf : t.findProxy proxyId with
  | none => exact ⟨rfl, rfl⟩
  | some p =>
    dsimp only
    by_cases hc : b2Contains p.fatAABB aabb
    · rw [if_pos hc]
      exact ⟨rfl, rfl⟩
    · rw [if_neg hc]
      refine ⟨?_, rfl⟩
      rw [List.map_map]
      apply List.map_congr_left
      intro q _
      by_cases hq : q.proxyId = proxyId
      · simp [hq]
      · simp [hq]

theorem applyOp_create_ids (bp : b2BroadPhase) (aabb : b2AABB) (userData : Int) :
    (bp.applyOp (.create aabb userData)).m_tree.proxies.map (fun p => p.proxyId) =
        bp.m_tree.proxies.map (fun p => p.proxyId) ++ [bp.m_tree.nextProxyId]
    ∧ (bp.applyOp (.create aabb userData)).m_tree.nextProxyId =
        bp.m_tree.nextProxyId + 1 := by
  refine ⟨?_, rfl⟩
  show ((bp.m_tree.proxies ++
      [(⟨bp.m_tree.nextProxyId, b2FattenAABB aabb ⟨0, 0⟩, userData⟩ : b2TreeProxy)]).map
        (fun p => p.proxyId)) = _
  rw [List.map_append]
  rfl

theorem applyOp_destroy_ids (bp : b2BroadPhase) (proxyId : Int) :
    (bp.applyOp (.destroy proxyId)).m_tree.proxies.map (fun p => p.proxyId) =
        (bp.m_tree.proxies.map (fun p => p.proxyId)).filter
          (fun x => decide (x ≠ proxyId))
    ∧ (bp.applyOp (.destroy proxyId)).m_tree.nextProxyId =
        bp.m_tree.nextProxyId := by
  exact ⟨map_proxyId_filter_ne bp.m_tree.proxies proxyId, rfl⟩

theorem applyOp_move_tree (bp : b2BroadPhase) (proxyId : Int) (aabb : b2AABB)
    (displacement : b2Vec2) :
    (bp.applyOp (.move proxyId aabb displacement)).m_tree =
      (bp.m_tree.MoveProxy proxyId aabb displacement).1 := by
  show (if (bp.m_tree.MoveProxy proxyId aabb displacement).2 then
        b2BroadPhase.BufferMove
          { bp with m_tree := (bp.m_tree.MoveProxy proxyId aabb displacement).1 }
          proxyId
      else
        { bp with
          m_tree := (bp.m_tree.MoveProxy proxyId aabb displacement).1 }).m_tree = _
  by_cases hb : (bp.m_tree.MoveProxy proxyId aabb displacement).2
  · rw [if_pos hb]
    rfl
  · rw [if_neg hb]

theorem applyOp_move_ids (bp : b2BroadPhase) (proxyId : Int) (aabb : b2AABB)
    (displacement : b2Vec2) :
    (bp.applyOp (.move proxyId aabb displacement)).m_tree.proxies.map
        (fun p => p.proxyId) = bp.m_tree.proxies.map (fun p => p.proxyId)
    ∧ (bp.applyOp (.move proxyId aabb displacement)).m_tree.nextProxyId =
        bp.m_tree.nextProxyId := by
  rw [applyOp_move_tree]
  exact tree_moveProxy_preserves_ids bp.m_tree proxyId aabb displacement

theorem applyOps_tree_ids (ops : List BroadPhaseOp) (bp : b2BroadPhase) :
    (bp.applyOps ops).m_tree.proxies.map (fun p => p.proxyId) =
      liveIdsFrom ops bp.m_tree.nextProxyId
        (bp.m_tree.proxies.map (fun p => p.proxyId)) := by
  induction ops generalizing bp with
  | nil => rfl
  | cons op rest ih =>
    rw [show bp.applyOps (op :: rest) = (bp.applyOp op).applyOps rest from rfl,
      ih (bp.applyOp op)]
    cases op with
    | create aabb userData =>
      rw [(applyOp_create_ids bp aabb userData).1,
        (applyOp_create_ids bp aabb userData).2]
      rfl
    | move proxyId aabb displacement =>
      rw [(applyOp_move_ids bp proxyId aabb displacement).1,
        (applyOp_move_ids bp proxyId aabb displacement).2]
      rfl
    | destroy proxyId =>
      rw [(applyOp_destroy_ids bp proxyId).1, (applyOp_destroy_ids bp proxyId).2]
      rfl
    | touch proxyId => rfl

theorem applyOps_treeWF (ops : List BroadPhaseOp) (bp : b2BroadPhase)
    (hwf : bp.m_tree.TreeWF) : ((bp.applyOps ops).m_tree).TreeWF := by
  induction ops generalizing bp with
  | nil => exact hwf
  | cons op rest ih =>
    rw [show bp.applyOps (op :: rest) = (bp.applyOp op).applyOps rest from rfl]
    refine ih (bp.applyOp op) ?_
    obtain ⟨hnd, hlt⟩ := hwf
    cases op with
    | create aabb userData =>
      refine ⟨?_, ?_⟩
      · rw [(applyOp_create_ids bp aabb userData).1, List.nodup_append]
        refine ⟨hnd, List.nodup_singleton _, ?_⟩
        intro x hx hx1
        have := hlt x hx
        simp only [List.mem_singleton] at hx1
        omega
      · rw [(applyOp_create_ids bp aabb userData).1,
          (applyOp_create_ids bp aabb userData).2]
        intro x hx
        rcases List.mem_append.mp hx with hx | hx
        · have := hlt x hx
          omega
        · simp only [List.mem_singleton] at hx
          omega
    | move proxyId aabb displacement =>
      refine ⟨?_, ?_⟩
      · rw [(applyOp_move_ids bp proxyId aabb displacement).1]
        exact hnd
      · rw [(applyOp_move_ids bp proxyId aabb displacement).1,
          (applyOp_move_ids bp proxyId aabb displacement).2]
        exact hlt
    | destroy proxyId =>
      refine ⟨?_, ?_⟩
      · rw [(applyOp_destroy_ids bp proxyId).1]
        exact hnd.sublist (List.filter_sublist _)
      · rw [(applyOp_destroy_ids bp proxyId).1, (applyOp_destroy_ids bp proxyId).2]
        intro x hx
        exact hlt x (List.mem_of_mem_filter hx)
    | touch proxyId => exact ⟨hnd, hlt⟩

theorem find?_proxyId_of_mem_of_nodup (l : List b2TreeProxy)
    (hnd : (l.map (fun p => p.proxyId)).Nodup) (p : b2TreeProxy) (hp : p ∈ l) :
    l.find? (fun q => q.proxyId = p.proxyId) = some p := by
  induction l with
  | nil => simp at hp
  | cons q rest ih =>
    rcases List.mem_cons.mp hp with hq | hq
    · subst hq
      rw [List.find?_cons_of_pos _ (by simp)]
    · have hqp : ¬ (q.proxyId = p.proxyId) := by
        intro he
        rw [List.map_cons, List.nodup_cons] at hnd
        exact hnd.1 (he ▸ List.mem_map_of_mem (fun r => r.proxyId) hq)
      rw [List.find?_cons_of_neg _ (by simpa using hqp)]
      exact ih (by
        rw [List.map_cons, List.nodup_cons] at hnd
        exact hnd.2) hq

/-- C4: for every sequence of proxy creations, moves and destructions
applied to a fresh broad phase, a `Query` over any AABB reports exactly the
still-live proxy ids (as determined by the trace alone) whose current fat
AABB overlaps the query AABB: no destroyed proxy is reported and no
overlapping live proxy is missed. -/
theorem query_exact_after_ops (ops : List BroadPhaseOp) (q : b2AABB) (id : Int) :
    id ∈ (b2BroadPhase.init.applyOps ops).Query q ↔
      (id ∈ liveIds ops ∧
        b2TestOverlap
          ((b2BroadPhase.init.applyOps ops).m_tree.GetFatAABB id) q = true) := by
  have hids : (b2BroadPhase.init.applyOps ops).m_tree.proxies.map
      (fun p => p.proxyId) = liveIds ops :=
    applyOps_tree_ids ops b2BroadPhase.init
  have hwf : ((b2BroadPhase.init.applyOps ops).m_tree).TreeWF :=
    applyOps_treeWF ops b2BroadPhase.init ⟨List.nodup_nil, by simp [b2BroadPhase.init, b2DynamicTree.empty]⟩
  constructor
  · intro hq
    unfold b2BroadPhase.Query b2DynamicTree.Query at hq
    obtain ⟨p, hpmem, hpid⟩ := List.mem_map.mp hq
    have hpfil := List.mem_filter.mp hpmem
    have hfind : (b2BroadPhase.init.applyOps ops).m_tree.findProxy p.proxyId =
        some p :=
      find?_proxyId_of_mem_of_nodup _ hwf.1 p hpfil.1
    constructor
    · rw [← hids]
      exact hpid ▸ List.mem_map_of_mem (fun r => r.proxyId) hpfil.1
    · have hfat : (b2BroadPhase.init.applyOps ops).m_tree.GetFatAABB id =
          p.fatAABB := by
        unfold b2DynamicTree.GetFatAABB
        rw [← hpid, hfind]
        rfl
      rw [hfat]
      exact hpfil.2
  · rintro ⟨hlive, hover⟩
    rw [← hids] at hlive
    obtain ⟨p, hpmem, hpid⟩ := List.mem_map.mp hlive
    have hfind : (b2BroadPhase.init.applyOps ops).m_tree.findProxy id = some p :=
      hpid ▸ find?_proxyId_of_mem_of_nodup _ hwf.1 p hpmem
    have hfat : (b2BroadPhase.init.applyOps ops).m_tree.GetFatAABB id =
        p.fatAABB := by
      unfold b2DynamicTree.GetFatAABB
      rw [hfind]
      rfl
    rw [hfat] at hover
    unfold b2BroadPhase.Query b2DynamicTree.Query
    refine List.mem_map.mpr ⟨p, List.mem_filter.mpr ⟨hpmem, ?_⟩, hpid⟩
    exact hover

/-! ### The TOI partition invariant of the contact array -/

theorem swapIdx_length {α : Type _} (l : List α) (i j : Nat) :
    (swapIdx l i j).length = l.length := by
  unfold swapIdx
  cases hi : l[i]? <;> cases hj : l[j]? <;> (dsimp only; try simp [List.length_set])

theorem getElem_swapIdx {α : Type _} (l : List α) (i j k : Nat)
    (hi : i < l.length) (hj : j < l.length) (hkl : k < l.length)
    (hk : k < (swapIdx l i j).length) :
    (swapIdx l i j)[k] =
      if k = j then l[i]
      else if k = i then l[j]
      else l[k] := by
  have hswap : swapIdx l i j = (l.set i l[j]).set j l[i] := by
    unfold swapIdx
    rw [List.getElem?_eq_getElem hi, List.getElem?_eq_getElem hj]
  simp only [hswap]
  rw [List.getElem_set, List.getElem_set]
  split_ifs <;> first | rfl | omega

theorem findContactIdx_lt (l : List b2Contact) (contactId : Nat) (i : Nat)
    (h : findContactIdx l contactId = some i) : i < l.length := by
  induction l generalizing i with
  | nil => simp [findContactIdx] at h
  | cons c rest ih =>
    rw [findContactIdx] at h
    by_cases hc : c.contactId = contactId
    · rw [if_pos hc] at h
      cases h
      simp
    · rw [if_neg hc] at h
      cases hmap : findContactIdx rest contactId with
      | none => rw [hmap] at h; simp at h
      | some j =>
        rw [hmap] at h
        simp at h
        have := ih j hmap
        simp only [List.length_cons]
        omega

theorem getElem_append_with_last {α : Type _} (l : List α) (c : α) (m : Nat)
    (hm : m < (l ++ [c]).length) :
    (l ++ [c])[m] = if h2 : m < l.length then l[m] else c := by
  rw [List.getElem_append]
  split
  · rfl
  · rw [List.getElem_singleton]

theorem addToContactArray_partitioned (cm : b2ContactManager) (c : b2Contact)
    (h : cm.ToiPartitioned) : (cm.AddToContactArray c).ToiPartitioned := by
  obtain ⟨hlen, hidx⟩ := h
  unfold b2ContactManager.AddToContactArray
  by_cases hc : c.toiEligible = true
  · rw [if_pos hc]
    have harrlen : (cm.m_contacts ++ [c]).length = cm.m_contacts.length + 1 := by
      simp
    have hlast : (cm.m_contacts ++ [c]).length - 1 = cm.m_contacts.length := by
      simp
    refine ⟨?_, ?_⟩
    · show cm.m_toiCount + 1 ≤ _
      rw [swapIdx_length, harrlen]
      omega
    · intro k hk
      show (swapIdx (cm.m_contacts ++ [c]) cm.m_toiCount
          ((cm.m_contacts ++ [c]).length - 1))[k].toiEligible =
        decide (k < cm.m_toiCount + 1)
      have hk2 : k < (cm.m_contacts ++ [c]).length := by
        have hk3 : k < (swapIdx (cm.m_contacts ++ [c]) cm.m_toiCount
            ((cm.m_contacts ++ [c]).length - 1)).length := hk
        rw [swapIdx_length] at hk3
        exact hk3
      rw [getElem_swapIdx _ _ _ _ (by rw [harrlen]; omega)
        (by rw [harrlen]; omega) hk2 hk]
      by_cases hkn : k = (cm.m_contacts ++ [c]).length - 1
      · rw [if_pos hkn,
          getElem_append_with_last cm.m_contacts c cm.m_toiCount (by rw [harrlen]; omega)]
        by_cases htc : cm.m_toiCount < cm.m_contacts.length
        · rw [dif_pos htc, hidx cm.m_toiCount htc]
          simp only [decide_eq_decide]
          omega
        · rw [dif_neg htc, hc]
          symm
          simp only [decide_eq_true_eq]
          omega
      · rw [if_neg hkn]
        by_cases hktc : k = cm.m_toiCount
        · rw [if_pos hktc,
            getElem_append_with_last cm.m_contacts c ((cm.m_contacts ++ [c]).length - 1)
              (by rw [harrlen]; omega),
            dif_neg (by omega), hc]
          symm
          simp only [decide_eq_true_eq]
          omega
        · rw [if_neg hktc,
            getElem_append_with_last cm.m_contacts c k hk2]
          rw [dif_pos (by omega), hidx k (by omega)]
          simp only [decide_eq_decide]
          omega
  · rw [if_neg hc]
    refine ⟨by simp; omega, ?_⟩
    intro k hk
    show (cm.m_contacts ++ [c])[k].toiEligible = decide (k < cm.m_toiCount)
    rw [getElem_append_with_last cm.m_contacts c k hk]
    by_cases hkn : k < cm.m_contacts.length
    · rw [dif_pos hkn]
      exact hidx k hkn
    · rw [dif_neg hkn]
      have hcf : c.toiEligible = false := by
        cases hcv : c.toiEligible
        · rfl
        · exact absurd hcv hc
      rw [hcf]
      symm
      simp only [decide_eq_false_iff_not]
      omega

theorem removeFromContactArray_partitioned (cm : b2ContactManager)
    (contactId : Nat) (h : cm.ToiPartitioned) :
    (cm.RemoveFromContactArray contactId).ToiPartitioned := by
  obtain ⟨hlen, hidx⟩ := h
  unfold b2ContactManager.RemoveFromContactArray
  cases hfound : findContactIdx cm.m_contacts contactId with
  | none => exact ⟨hlen, hidx⟩
  | some i =>
    dsimp only
    have hi : i < cm.m_contacts.length := findContactIdx_lt _ _ _ hfound
    by_cases hitc : i < cm.m_toiCount
    · rw [if_pos hitc]
      have h1len : (swapIdx cm.m_contacts i (cm.m_toiCount - 1)).length =
          cm.m_contacts.length := swapIdx_length _ _ _
      have h2len : (swapIdx (swapIdx cm.m_contacts i (cm.m_toiCount - 1))
          (cm.m_toiCount - 1) (cm.m_contacts.length - 1)).length =
          cm.m_contacts.length := by rw [swapIdx_length, h1len]
      refine ⟨?_, ?_⟩
      · show cm.m_toiCount - 1 ≤ _
        rw [List.length_dropLast, h2len]
        omega
      · intro k hk
        have hk2 : k < cm.m_contacts.length - 1 := by
          have hk3 : k < ((swapIdx (swapIdx cm.m_contacts i (cm.m_toiCount - 1))
              (cm.m_toiCount - 1) (cm.m_contacts.length - 1)).dropLast).length := hk
          rw [List.length_dropLast, h2len] at hk3
          exact hk3
        show ((swapIdx (swapIdx cm.m_contacts i (cm.m_toiCount - 1))
            (cm.m_toiCount - 1) (cm.m_contacts.length - 1)).dropLast)[k].toiEligible =
          decide (k < cm.m_toiCount - 1)
        rw [List.getElem_dropLast,
          getElem_swapIdx _ _ _ _ (by rw [h1len]; omega) (by rw [h1len]; omega)
            (by rw [h1len]; omega) (by rw [h2len]; omega),
          if_neg (by omega)]
        by_cases hk4 : k = cm.m_toiCount - 1
        · rw [if_pos hk4,
            getElem_swapIdx _ _ _ _ hi (by omega) (by omega) (by rw [h1len]; omega),
            if_neg (by omega), if_neg (by omega), hidx (cm.m_contacts.length - 1) (by omega)]
          simp only [decide_eq_decide]
          omega
        · rw [if_neg hk4,
            getElem_swapIdx _ _ _ _ hi (by omega) (by omega) (by rw [h1len]; omega),
            if_neg (by omega)]
          by_cases hk5 : k = i
          · rw [if_pos hk5, hidx (cm.m_toiCount - 1) (by omega)]
            simp only [decide_eq_decide]
            omega
          · rw [if_neg hk5, hidx k (by omega)]
            simp only [decide_eq_decide]
            omega
    · rw [if_neg hitc]
      have h1len : (swapIdx cm.m_contacts i (cm.m_contacts.length - 1)).length =
          cm.m_contacts.length := swapIdx_length _ _ _
      refine ⟨?_, ?_⟩
      · show cm.m_toiCount ≤ _
        rw [List.length_dropLast, h1len]
        omega
      · intro k hk
        have hk2 : k < cm.m_contacts.length - 1 := by
          have hk3 : k < ((swapIdx cm.m_contacts i
              (cm.m_contacts.length - 1)).dropLast).length := hk
          rw [List.length_dropLast, h1len] at hk3
          exact hk3
        show ((swapIdx cm.m_contacts i
            (cm.m_contacts.length - 1)).dropLast)[k].toiEligible =
          decide (k < cm.m_toiCount)
        rw [List.getElem_dropLast,
          getElem_swapIdx _ _ _ _ hi (by omega) (by omega) (by rw [h1len]; omega),
          if_neg (by omega)]
        by_cases hk4 : k = i
        · rw [if_pos hk4, hidx (cm.m_contacts.length - 1) (by omega)]
          simp only [decide_eq_decide]
          omega
        · rw [if_neg hk4, hidx k (by omega)]

theorem recalculateToiCandidacy_partitioned (cm : b2ContactManager)
    (contactId : Nat) (toi : Bool) (h : cm.ToiPartitioned) :
    (cm.RecalculateToiCandidacy contactId toi).ToiPartitioned := by
  obtain ⟨hlen, hidx⟩ := h
  unfold b2ContactManager.RecalculateToiCandidacy
  cases hfound : findContactIdx cm.m_contacts contactId with
  | none => exact ⟨hlen, hidx⟩
  | some i =>
    dsimp only
    have hi : i < cm.m_contacts.length := findContactIdx_lt _ _ _ hfound
    rw [List.getElem?_eq_getElem hi]
    dsimp only
    have hsetlen : (cm.m_contacts.set i
        (⟨cm.m_contacts[i].contactId, toi⟩ : b2Contact)).length =
        cm.m_contacts.length := List.length_set _ _ _
    by_cases ht : toi = true
    · subst ht
      rw [if_pos rfl]
      by_cases hitc : i < cm.m_toiCount
      · rw [if_pos hitc]
        refine ⟨by dsimp only; rw [hsetlen]; omega, ?_⟩
        intro k hk
        have hk2 : k < cm.m_contacts.length := by
          have hk3 : k < (cm.m_contacts.set i
              (⟨cm.m_contacts[i].contactId, true⟩ : b2Contact)).length := hk
          rw [hsetlen] at hk3
          exact hk3
        show (cm.m_contacts.set i
            (⟨cm.m_contacts[i].contactId, true⟩ : b2Contact))[k].toiEligible =
          decide (k < cm.m_toiCount)
        rw [List.getElem_set]
        by_cases hki : i = k
        · rw [if_pos hki]
          symm
          simp only [decide_eq_true_eq]
          omega
        · rw [if_neg hki, hidx k hk2]
      · rw [if_neg hitc]
        have htcn : cm.m_toiCount < cm.m_contacts.length := by omega
        refine ⟨?_, ?_⟩
        · show cm.m_toiCount + 1 ≤ _
          rw [swapIdx_length, hsetlen]
          omega
        · intro k hk
          have hk2 : k < cm.m_contacts.length := by
            have hk3 : k < (swapIdx (cm.m_contacts.set i
                (⟨cm.m_contacts[i].contactId, true⟩ : b2Contact))
                cm.m_toiCount i).length := hk
            rw [swapIdx_length, hsetlen] at hk3
            exact hk3
          show (swapIdx (cm.m_contacts.set i
              (⟨cm.m_contacts[i].contactId, true⟩ : b2Contact))
              cm.m_toiCount i)[k].toiEligible = decide (k < cm.m_toiCount + 1)
          rw [getElem_swapIdx _ _ _ _ (by rw [hsetlen]; omega)
            (by rw [hsetlen]; omega) (by rw [hsetlen]; omega)
            (by rw [swapIdx_length, hsetlen]; omega)]
          by_cases hk4 : k = i
          · rw [if_pos hk4, List.getElem_set]
            by_cases hk5 : i = cm.m_toiCount
            · rw [if_pos hk5]
              symm
              simp only [decide_eq_true_eq]
              omega
            · rw [if_neg hk5, hidx cm.m_toiCount htcn]
              simp only [decide_eq_decide]
              omega
          · rw [if_neg hk4]
            by_cases hk5 : k = cm.m_toiCount
            · rw [if_pos hk5, List.getElem_set, if_pos rfl]
              symm
              simp only [decide_eq_true_eq]
              omega
            · rw [if_neg hk5, List.getElem_set, if_neg (by omega), hidx k hk2]
              simp only [decide_eq_decide]
              omega
    · have htf : toi = false := by
        cases toi
        · rfl
        · exact absurd rfl ht
      subst htf
      rw [if_neg (by simp)]
      by_cases hitc : i < cm.m_toiCount
      · rw [if_pos hitc]
        refine ⟨?_, ?_⟩
        · show cm.m_toiCount - 1 ≤ _
          rw [swapIdx_length, hsetlen]
          omega
        · intro k hk
          have hk2 : k < cm.m_contacts.length := by
            have hk3 : k < (swapIdx (cm.m_contacts.set i
                (⟨cm.m_contacts[i].contactId, false⟩ : b2Contact))
                i (cm.m_toiCount - 1)).length := hk
            rw [swapIdx_length, hsetlen] at hk3
            exact hk3
          show (swapIdx (cm.m_contacts.set i
              (⟨cm.m_contacts[i].contactId, false⟩ : b2Contact))
              i (cm.m_toiCount - 1))[k].toiEligible =
            decide (k < cm.m_toiCount - 1)
          rw [getElem_swapIdx _ _ _ _ (by rw [hsetlen]; omega)
            (by rw [hsetlen]; omega) (by rw [hsetlen]; omega)
            (by rw [swapIdx_length, hsetlen]; omega)]
          by_cases hk4 : k = cm.m_toiCount - 1
          · rw [if_pos hk4, List.getElem_set, if_pos rfl]
            symm
            simp only [decide_eq_false_iff_not]
            omega
          · rw [if_neg hk4]
            by_cases hk5 : k = i
            · rw [if_pos hk5, List.getElem_set, if_neg (by omega),
                hidx (cm.m_toiCount - 1) (by omega)]
              simp only [decide_eq_decide]
              omega
            · rw [if_neg hk5, List.getElem_set, if_neg (by omega), hidx k hk2]
              simp only [decide_eq_decide]
              omega
      · rw [if_neg hitc]
        refine ⟨by dsimp only; rw [hsetlen]; omega, ?_⟩
        intro k hk
        have hk2 : k < cm.m_contacts.length := by
          have hk3 : k < (cm.m_contacts.set i
              (⟨cm.m_contacts[i].contactId, false⟩ : b2Contact)).length := hk
          rw [hsetlen] at hk3
          exact hk3
        show (cm.m_contacts.set i
            (⟨cm.m_contacts[i].contactId, false⟩ : b2Contact))[k].toiEligible =
          decide (k < cm.m_toiCount)
        rw [List.getElem_set]
        by_cases hki : i = k
        · rw [if_pos hki]
          symm
          simp only [decide_eq_false_iff_not]
          omega
        · rw [if_neg hki, hidx k hk2]

theorem applyContactOps_partitioned (ops : List ContactOp)
    (cm : b2ContactManager) (h : cm.ToiPartitioned) :
    (cm.applyContactOps ops).ToiPartitioned := by
  induction ops generalizing cm with
  | nil => exact h
  | cons op rest ih =>
    refine ih (cm.applyContactOp op) ?_
    cases op with
    | create c => exact addToContactArray_partitioned cm c h
    | destroy contactId => exact removeFromContactArray_partitioned cm contactId h
    | recalc contactId toi =>
      exact recalculateToiCandidacy_partitioned cm contactId toi h

theorem initManager_partitioned : b2ContactManager.initManager.ToiPartitioned := by
  refine ⟨Nat.le_refl 0, ?_⟩
  intro i hi
  exact absurd hi (Nat.not_lt_zero i)

/-- C6: after an arbitrary interleaving of contact creations, destructions
and TOI-eligibility toggles starting from an empty contact manager, the flat
contact array is partitioned — the entries of `[0, m_toiCount)` are exactly
the TOI-eligible contacts and those of `[m_toiCount, size)` all others —
and consistently `GetToiBegin` is the array start, `GetNonToiBegin` the
array start plus `m_toiCount`, and `GetNonToiCount` the array size minus
`m_toiCount`. -/
theorem contact_array_toi_partitioned (ops : List ContactOp) :
    (b2ContactManager.initManager.applyContactOps ops).m_toiCount ≤
        (b2ContactManager.initManager.applyContactOps ops).m_contacts.length
    ∧ (∀ c ∈ (b2ContactManager.initManager.applyContactOps ops).m_contacts.take
          (b2ContactManager.initManager.applyContactOps ops).m_toiCount,
        c.toiEligible = true)
    ∧ (∀ c ∈ (b2ContactManager.initManager.applyContactOps ops).m_contacts.drop
          (b2ContactManager.initManager.applyContactOps ops).m_toiCount,
        c.toiEligible = false)
    ∧ (b2ContactManager.initManager.applyContactOps ops).GetToiBegin = 0
    ∧ (b2ContactManager.initManager.applyContactOps ops).GetNonToiBegin =
        (b2ContactManager.initManager.applyContactOps ops).GetToiBegin +
          (b2ContactManager.initManager.applyContactOps ops).m_toiCount
    ∧ (b2ContactManager.initManager.applyContactOps ops).GetNonToiCount =
        (b2ContactManager.initManager.applyContactOps ops).m_contacts.length -
          (b2ContactManager.initManager.applyContactOps ops).m_toiCount := by
  obtain ⟨hlen, hidx⟩ :=
    applyContactOps_partitioned ops b2ContactManager.initManager
      initManager_partitioned
  refine ⟨hlen, ?_, ?_, rfl, (Nat.zero_add _).symm, rfl⟩
  · intro c hc
    obtain ⟨i, hi, hci⟩ := List.mem_iff_getElem.mp hc
    have hilen : i < (b2ContactManager.initManager.applyContactOps
        ops).m_contacts.length := by
      have := hi
      rw [List.length_take] at this
      omega
    have hitc : i < (b2ContactManager.initManager.applyContactOps
        ops).m_toiCount := by
      have := hi
      rw [List.length_take] at this
      omega
    rw [List.getElem_take] at hci
    rw [← hci, hidx i hilen]
    simp only [decide_eq_true_eq]
    exact hitc
  · intro c hc
    obtain ⟨i, hi, hci⟩ := List.mem_iff_getElem.mp hc
    have hlen2 : i < (b2ContactManager.initManager.applyContactOps
        ops).m_contacts.length -
        (b2ContactManager.initManager.applyContactOps ops).m_toiCount := by
      have := hi
      rw [List.length_drop] at this
      omega
    rw [List.getElem_drop] at hci
    rw [← hci, hidx _ (by omega)]
    simp only [decide_eq_false_iff_not]
    omega

end Box2DMT
